import Mathlib

/-!
Verification of the pairwise-distance edge reconstructor
(`euclidean_distance_model` in `Network_Analysis2.ipynb`).

The Python source is:

```
def euclidean_distance_model(G, pos_dict, n_edges):
    nodes = list(pos_dict.keys())
    pairs = combinations(nodes, 2)
    distance_list = []
    for u, v in pairs:
        x1, y1 = pos_dict[u]
        x2, y2 = pos_dict[v]
        distance = math.sqrt((x2 - x1)**2 + (y2 - y1)**2)
        distance_list.append((distance, u, v))
    distance_list.sort(key=lambda x: x[0])
    ordered_pairs = [(u, v) for (d, u, v) in distance_list]
    for i in range(n_edges):
        G.add_edge(ordered_pairs[i][0], ordered_pairs[i][1])
    return G
```

Embedding choices:
* `pos_dict` is an association list (a Python `dict` preserves insertion
  order; its keys are pairwise distinct by the `dict` invariant).
* Coordinates are rationals.  The source sorts by
  `math.sqrt((x2-x1)**2 + (y2-y1)**2)`; since the square root is strictly
  monotone on nonnegative reals, sorting by the squared Euclidean distance
  produces exactly the same order, so the sort key of the embedding is the
  exact squared distance `dist_sq`.
* `list.sort` in Python is a stable sort; `List.insertionSort` with the
  non-strict key comparison is stable in the same sense (equal keys keep
  their relative order), so it computes the same sorted list.
* `G` is a networkx-style undirected graph: explicit node list and edge
  list; `add_edge u v` first inserts the endpoints into the node list when
  absent, then inserts the edge unless the unordered pair is already
  present.
* `range(n_edges)` iterates `max n_edges 0` times; indexing
  `ordered_pairs[i]` past the end raises `IndexError`, which the embedding
  records in the result together with the graph state reached at that
  point (the Python `G` is mutated in place, so the edges added before the
  exception are visible to the caller).
-/

/-- Node identifiers (integers in the source data files). -/
abbrev Node := Nat

/-- A 2-D coordinate. -/
abbrev Point := ℚ × ℚ

/-- `pos_dict`: mapping from node id to coordinate, as an association list
in insertion order with pairwise-distinct keys (the Python `dict` invariant). -/
abbrev PosDict := List (Node × Point)

/-- The key list of a `PosDict`, in insertion order (`list(pos_dict.keys())`). -/
def keys (pd : PosDict) : List Node := pd.map Prod.fst

/-- `pos_dict[u]`: lookup of a node's coordinate.  For keys present in the
dictionary this is the unique associated value; the default is never
reached on inputs satisfying the `dict` invariant. -/
def getPos (pd : PosDict) (u : Node) : Point := (pd.lookup u).getD (0, 0)

/-- `itertools.combinations(nodes, 2)`: all pairs `(nodes[i], nodes[j])`
with `i < j`, in lexicographic position order. -/
def combinations2 : List Node → List (Node × Node)
  | [] => []
  | u :: rest => rest.map (fun v => (u, v)) ++ combinations2 rest

/-- Squared Euclidean distance `(x2 - x1)^2 + (y2 - y1)^2` between two
coordinates; the sort key of the embedding (order-equivalent to the
source's `math.sqrt` of it). -/
def dist_sq (p q : Point) : ℚ := (q.1 - p.1) ^ 2 + (q.2 - p.2) ^ 2

/-- The `distance_list` built by the first loop: one triple
`(distance, u, v)` per candidate pair, in enumeration order. -/
def distance_list (pd : PosDict) : List (ℚ × Node × Node) :=
  (combinations2 (keys pd)).map (fun p => (dist_sq (getPos pd p.1) (getPos pd p.2), p.1, p.2))

/-- The comparison used by `distance_list.sort(key=lambda x: x[0])`. -/
def keyLE (a b : ℚ × Node × Node) : Prop := a.1 ≤ b.1

instance : DecidableRel keyLE := fun a b => inferInstanceAs (Decidable (a.1 ≤ b.1))

instance : IsTotal (ℚ × Node × Node) keyLE := ⟨fun a b => le_total a.1 b.1⟩

instance : IsTrans (ℚ × Node × Node) keyLE := ⟨fun _ _ _ h h' => le_trans h h'⟩

/-- `distance_list` after the stable in-place sort by distance. -/
def sorted_distance_list (pd : PosDict) : List (ℚ × Node × Node) :=
  (distance_list pd).insertionSort keyLE

/-- `ordered_pairs = [(u, v) for (d, u, v) in distance_list]` after sorting. -/
def ordered_pairs (pd : PosDict) : List (Node × Node) :=
  (sorted_distance_list pd).map (fun t => (t.2.1, t.2.2))

/-- A networkx-style undirected graph: node list and edge list, both in
insertion order. -/
structure Graph where
  nodeList : List Node
  edgeList : List (Node × Node)
deriving DecidableEq

/-- Whether the unordered pair `{u, v}` is already an edge of `g`. -/
def Graph.hasEdge (g : Graph) (u v : Node) : Bool :=
  g.edgeList.any (fun e => (e.1 == u && e.2 == v) || (e.1 == v && e.2 == u))

/-- networkx inserts a node when it is not yet present. -/
def Graph.addNode (g : Graph) (u : Node) : Graph :=
  if u ∈ g.nodeList then g else { g with nodeList := g.nodeList ++ [u] }

/-- `G.add_edge(u, v)` in networkx: the endpoints are added to the graph
when absent, then the undirected edge `{u, v}` is inserted unless already
present. -/
def Graph.add_edge (g : Graph) (u v : Node) : Graph :=
  let g1 := (g.addNode u).addNode v
  if g1.hasEdge u v then g1 else { g1 with edgeList := g1.edgeList ++ [(u, v)] }

/-- Result of running the reconstructor: the final graph state, and the
uncaught Python exception if one was raised (`none` = normal return). -/
structure RunResult where
  graph : Graph
  err : Option String
deriving DecidableEq

/-- The edge-insertion loop `for i in range(_): G.add_edge(...)`, starting
at index `i` with `k` iterations left.  Indexing past the end of
`ordered` raises `IndexError`, leaving the graph in its current state. -/
def addEdgesFrom (ordered : List (Node × Node)) : Graph → Nat → Nat → RunResult
  | g, _, 0 => ⟨g, none⟩
  | g, i, k + 1 =>
    match ordered[i]? with
    | none => ⟨g, some "IndexError"⟩
    | some uv => addEdgesFrom ordered (g.add_edge uv.1 uv.2) (i + 1) k

/-- The reconstructor `euclidean_distance_model(G, pos_dict, n_edges)`.
`n_edges` is a Python `int` (possibly negative; `range` of a nonpositive
bound is empty, hence `Int.toNat`). -/
def euclidean_distance_model (G : Graph) (pos_dict : PosDict) (n_edges : ℤ) : RunResult :=
  addEdgesFrom (ordered_pairs pos_dict) G 0 n_edges.toNat

/-- Two ordered pairs denote the same unordered edge. -/
def sameEdge (a b : Node × Node) : Prop := a = b ∨ a = (b.2, b.1)

instance : DecidableRel sameEdge := fun a b =>
  inferInstanceAs (Decidable (a = b ∨ a = (b.2, b.1)))

/-- The (squared) Euclidean distance spanned by an edge, recomputed from
the coordinate mapping. -/
def edgeDistSq (pd : PosDict) (e : Node × Node) : ℚ :=
  dist_sq (getPos pd e.1) (getPos pd e.2)

/-- The 2-node example dictionary used for concrete counterexamples. -/
def pd2 : PosDict := [(0, ((0 : ℚ), (0 : ℚ))), (1, ((1 : ℚ), (0 : ℚ)))]

/-- The 4-node dictionary of the end-to-end scenario:
coordinates (0,0), (1,0), (0,1), (10,10). -/
def pd4 : PosDict :=
  [(0, ((0 : ℚ), (0 : ℚ))), (1, ((1 : ℚ), (0 : ℚ))),
   (2, ((0 : ℚ), (1 : ℚ))), (3, ((10 : ℚ), (10 : ℚ)))]

/-! ### Combinatorial facts about the pair enumeration -/

lemma sameEdge_symm {a b : Node × Node} (h : sameEdge a b) : sameEdge b a := by
  rcases h with rfl | h
  · exact Or.inl rfl
  · subst h
    exact Or.inr Prod.mk.eta.symm

lemma mem_combinations2 {l : List Node} {p : Node × Node} (h : p ∈ combinations2 l) :
    p.1 ∈ l ∧ p.2 ∈ l := by
  induction l with
  | nil => cases h
  | cons u rest ih =>
    simp only [combinations2, List.mem_append, List.mem_map] at h
    rcases h with ⟨v, hv, rfl⟩ | h
    · exact ⟨List.mem_cons_self _ _, List.mem_cons_of_mem _ hv⟩
    · exact ⟨List.mem_cons_of_mem _ (ih h).1, List.mem_cons_of_mem _ (ih h).2⟩

lemma combinations2_ne {l : List Node} (hl : l.Nodup) {p : Node × Node}
    (h : p ∈ combinations2 l) : p.1 ≠ p.2 := by
  induction l with
  | nil => cases h
  | cons u rest ih =>
    obtain ⟨hu, hrest⟩ := List.nodup_cons.mp hl
    simp only [combinations2, List.mem_append, List.mem_map] at h
    rcases h with ⟨v, hv, rfl⟩ | h
    · intro hc
      have huv : u = v := hc
      exact hu (by rw [huv]; exact hv)
    · exact ih hrest h

lemma combinations2_pairwise {l : List Node} (hl : l.Nodup) :
    List.Pairwise (fun a b => ¬ sameEdge a b) (combinations2 l) := by
  induction l with
  | nil => exact List.Pairwise.nil
  | cons u rest ih =>
    obtain ⟨hu, hrest⟩ := List.nodup_cons.mp hl
    simp only [combinations2]
    refine List.pairwise_append.mpr ⟨?_, ih hrest, ?_⟩
    · rw [List.pairwise_map]
      refine List.Pairwise.imp_of_mem ?_ hrest
      intro a b ha hb hab hc
      rcases hc with hc | hc
      · exact hab (congrArg Prod.snd hc)
      · have hub : u = b := congrArg Prod.fst hc
        exact hu (by rw [hub]; exact hb)
    · intro x hx y hy hc
      obtain ⟨v, hv, rfl⟩ := List.mem_map.mp hx
      have hy1 := (mem_combinations2 hy).1
      have hy2 := (mem_combinations2 hy).2
      rcases hc with hc | hc
      · have h1 : u = y.1 := congrArg Prod.fst hc
        exact hu (by rw [h1]; exact hy1)
      · have h2 : u = y.2 := congrArg Prod.fst hc
        exact hu (by rw [h2]; exact hy2)

lemma combinations2_complete {l : List Node} {a b : Node}
    (ha : a ∈ l) (hb : b ∈ l) (hab : a ≠ b) :
    (a, b) ∈ combinations2 l ∨ (b, a) ∈ combinations2 l := by
  induction l with
  | nil => cases ha
  | cons u rest ih =>
    simp only [combinations2, List.mem_append, List.mem_map]
    rcases List.mem_cons.mp ha with rfl | ha'
    · have hb' : b ∈ rest := by
        rcases List.mem_cons.mp hb with rfl | hb'
        · exact absurd rfl hab
        · exact hb'
      exact Or.inl (Or.inl ⟨b, hb', rfl⟩)
    · rcases List.mem_cons.mp hb with rfl | hb'
      · exact Or.inr (Or.inl ⟨a, ha', rfl⟩)
      · rcases ih ha' hb' with h | h
        · exact Or.inl (Or.inr h)
        · exact Or.inr (Or.inr h)

lemma length_combinations2 (l : List Node) :
    (combinations2 l).length = l.length.choose 2 := by
  induction l with
  | nil => rfl
  | cons u rest ih =>
    simp only [combinations2, List.length_append, List.length_map, ih, List.length_cons,
      Nat.choose_succ_succ, Nat.choose_one_right]

/-! ### The distance list and its sorted version -/

lemma dist_sq_comm (p q : Point) : dist_sq p q = dist_sq q p := by
  simp only [dist_sq]
  ring

lemma distance_list_pairs (pd : PosDict) :
    (distance_list pd).map (fun t => (t.2.1, t.2.2)) = combinations2 (keys pd) := by
  simp [distance_list, List.map_map, Function.comp_def]

lemma sorted_distance_list_perm (pd : PosDict) :
    (sorted_distance_list pd).Perm (distance_list pd) :=
  List.perm_insertionSort _ _

lemma sorted_distance_list_sorted (pd : PosDict) :
    List.Sorted keyLE (sorted_distance_list pd) :=
  List.sorted_insertionSort _ _

lemma mem_sorted_distance_list {pd : PosDict} {t : ℚ × Node × Node}
    (h : t ∈ sorted_distance_list pd) :
    (t.2.1, t.2.2) ∈ combinations2 (keys pd) ∧
      t.1 = dist_sq (getPos pd t.2.1) (getPos pd t.2.2) := by
  have h' : t ∈ distance_list pd := (sorted_distance_list_perm pd).mem_iff.mp h
  simp only [distance_list, List.mem_map] at h'
  obtain ⟨p, hp, rfl⟩ := h'
  exact ⟨by simpa using hp, rfl⟩

lemma ordered_pairs_perm (pd : PosDict) :
    (ordered_pairs pd).Perm (combinations2 (keys pd)) := by
  rw [← distance_list_pairs]
  exact (sorted_distance_list_perm pd).map _

lemma length_ordered_pairs (pd : PosDict) :
    (ordered_pairs pd).length = (keys pd).length.choose 2 :=
  (ordered_pairs_perm pd).length_eq.trans (length_combinations2 _)

lemma ordered_pairs_pairwise {pd : PosDict} (hk : (keys pd).Nodup) :
    List.Pairwise (fun a b => ¬ sameEdge a b) (ordered_pairs pd) :=
  (List.Perm.pairwise_iff (fun h hc => h (sameEdge_symm hc)) (ordered_pairs_perm pd)).mpr
    (combinations2_pairwise hk)

lemma ordered_pairs_mem_keys {pd : PosDict} {p : Node × Node} (h : p ∈ ordered_pairs pd) :
    p.1 ∈ keys pd ∧ p.2 ∈ keys pd :=
  mem_combinations2 ((ordered_pairs_perm pd).mem_iff.mp h)

lemma ordered_pairs_ne {pd : PosDict} (hk : (keys pd).Nodup) {p : Node × Node}
    (h : p ∈ ordered_pairs pd) : p.1 ≠ p.2 :=
  combinations2_ne hk ((ordered_pairs_perm pd).mem_iff.mp h)

lemma exists_sorted_triple {pd : PosDict} {u v : Node}
    (hu : u ∈ keys pd) (hv : v ∈ keys pd) (huv : u ≠ v) :
    ∃ t ∈ sorted_distance_list pd, t.1 = dist_sq (getPos pd u) (getPos pd v) := by
  rcases combinations2_complete hu hv huv with h | h
  · refine ⟨(dist_sq (getPos pd u) (getPos pd v), u, v),
      (sorted_distance_list_perm pd).mem_iff.mpr ?_, rfl⟩
    simp only [distance_list, List.mem_map]
    exact ⟨(u, v), h, rfl⟩
  · refine ⟨(dist_sq (getPos pd v) (getPos pd u), v, u),
      (sorted_distance_list_perm pd).mem_iff.mpr ?_, dist_sq_comm _ _⟩
    simp only [distance_list, List.mem_map]
    exact ⟨(v, u), h, rfl⟩

/-! ### Graph operations -/

lemma addNode_edgeList (g : Graph) (u : Node) : (g.addNode u).edgeList = g.edgeList := by
  by_cases h : u ∈ g.nodeList <;> simp [Graph.addNode, h]

lemma addNode_of_mem {g : Graph} {u : Node} (h : u ∈ g.nodeList) : g.addNode u = g := by
  simp [Graph.addNode, h]

lemma hasEdge_congr {g g' : Graph} (h : g.edgeList = g'.edgeList) (u v : Node) :
    g.hasEdge u v = g'.hasEdge u v := by
  simp [Graph.hasEdge, h]

lemma hasEdge_iff {g : Graph} {u v : Node} :
    g.hasEdge u v = true ↔ ∃ e ∈ g.edgeList, sameEdge e (u, v) := by
  simp [Graph.hasEdge, List.any_eq_true, sameEdge, Prod.ext_iff]

lemma add_edge_edgeList (g : Graph) (u v : Node) :
    (g.add_edge u v).edgeList =
      if g.hasEdge u v then g.edgeList else g.edgeList ++ [(u, v)] := by
  have h1 : ((g.addNode u).addNode v).edgeList = g.edgeList := by
    rw [addNode_edgeList, addNode_edgeList]
  have h2 : ((g.addNode u).addNode v).hasEdge u v = g.hasEdge u v := hasEdge_congr h1 u v
  by_cases h : g.hasEdge u v <;>
    simp [Graph.add_edge, h2, h, h1]

lemma add_edge_nodeList {g : Graph} {u v : Node} (hu : u ∈ g.nodeList) (hv : v ∈ g.nodeList) :
    (g.add_edge u v).nodeList = g.nodeList := by
  have h1 : (g.addNode u).addNode v = g := by rw [addNode_of_mem hu, addNode_of_mem hv]
  by_cases h : g.hasEdge u v <;>
    simp [Graph.add_edge, h1, h]

lemma add_edge_edgeList_append (g : Graph) (u v : Node) :
    ∃ l, (g.add_edge u v).edgeList = g.edgeList ++ l := by
  rw [add_edge_edgeList]
  by_cases h : g.hasEdge u v
  · exact ⟨[], by simp [h]⟩
  · exact ⟨[(u, v)], by simp [h]⟩

lemma add_edge_preserves_simple {g : Graph} {u v : Node} (huv : u ≠ v)
    (h1 : ∀ e ∈ g.edgeList, e.1 ≠ e.2)
    (h2 : List.Pairwise (fun a b => ¬ sameEdge a b) g.edgeList) :
    (∀ e ∈ (g.add_edge u v).edgeList, e.1 ≠ e.2) ∧
      List.Pairwise (fun a b => ¬ sameEdge a b) (g.add_edge u v).edgeList := by
  rw [add_edge_edgeList]
  by_cases h : g.hasEdge u v
  · rw [if_pos h]
    exact ⟨h1, h2⟩
  · rw [if_neg h]
    have hfresh : ∀ e ∈ g.edgeList, ¬ sameEdge e (u, v) := by
      intro e he hc
      exact h (hasEdge_iff.mpr ⟨e, he, hc⟩)
    constructor
    · intro e he
      rcases List.mem_append.mp he with he | he
      · exact h1 e he
      · simp only [List.mem_singleton] at he
        subst he
        exact huv
    · refine List.pairwise_append.mpr ⟨h2, List.pairwise_singleton _ _, ?_⟩
      intro x hx y hy
      simp only [List.mem_singleton] at hy
      subst hy
      exact hfresh x hx

/-! ### The edge-insertion loop -/

lemma addEdgesFrom_spec (ordered : List (Node × Node)) :
    ∀ (k i : ℕ) (g : Graph), i + k ≤ ordered.length →
      List.Pairwise (fun a b => ¬ sameEdge a b) ((ordered.drop i).take k) →
      (∀ a ∈ (ordered.drop i).take k, ∀ e ∈ g.edgeList, ¬ sameEdge e a) →
      (addEdgesFrom ordered g i k).err = none ∧
        (addEdgesFrom ordered g i k).graph.edgeList = g.edgeList ++ (ordered.drop i).take k := by
  intro k
  induction k with
  | zero =>
    intro i g _ _ _
    simp [addEdgesFrom]
  | succ k ih =>
    intro i g hlen hpw hfresh
    have hi : i < ordered.length := by omega
    have htake : (ordered.drop i).take (k + 1) =
        ordered[i] :: (ordered.drop (i + 1)).take k := by
      rw [List.drop_eq_getElem_cons hi, List.take_succ_cons]
    rw [htake] at hpw hfresh
    obtain ⟨hhead, htail⟩ := List.pairwise_cons.mp hpw
    have heq : addEdgesFrom ordered g i (k + 1) =
        addEdgesFrom ordered (g.add_edge ordered[i].1 ordered[i].2) (i + 1) k := by
      simp [addEdgesFrom, List.getElem?_eq_getElem hi]
    have hnew : g.hasEdge ordered[i].1 ordered[i].2 = false := by
      rw [Bool.eq_false_iff]
      intro hc
      obtain ⟨e, he, hsame⟩ := hasEdge_iff.mp hc
      exact hfresh ordered[i] (List.mem_cons_self _ _) e he hsame
    have hglist : (g.add_edge ordered[i].1 ordered[i].2).edgeList =
        g.edgeList ++ [ordered[i]] := by
      rw [add_edge_edgeList, hnew]
      simp
    have hfresh' : ∀ a ∈ (ordered.drop (i + 1)).take k,
        ∀ e ∈ (g.add_edge ordered[i].1 ordered[i].2).edgeList, ¬ sameEdge e a := by
      intro a ha e he
      rw [hglist] at he
      rcases List.mem_append.mp he with he | he
      · exact hfresh a (List.mem_cons_of_mem _ ha) e he
      · simp only [List.mem_singleton] at he
        subst he
        exact hhead a ha
    obtain ⟨herr, hlist⟩ :=
      ih (i + 1) (g.add_edge ordered[i].1 ordered[i].2) (by omega) htail hfresh'
    rw [heq]
    refine ⟨herr, ?_⟩
    rw [hlist, hglist, htake]
    simp

lemma addEdgesFrom_nodeList (ordered : List (Node × Node)) :
    ∀ (k i : ℕ) (g : Graph),
      (∀ a ∈ ordered, a.1 ∈ g.nodeList ∧ a.2 ∈ g.nodeList) →
      (addEdgesFrom ordered g i k).graph.nodeList = g.nodeList := by
  intro k
  induction k with
  | zero => intro i g _; rfl
  | succ k ih =>
    intro i g hmem
    cases hoi : ordered[i]? with
    | none => simp [addEdgesFrom, hoi]
    | some a =>
      have ha : a ∈ ordered := List.getElem?_mem hoi
      have hnode : (g.add_edge a.1 a.2).nodeList = g.nodeList :=
        add_edge_nodeList (hmem a ha).1 (hmem a ha).2
      have hmem' : ∀ b ∈ ordered,
          b.1 ∈ (g.add_edge a.1 a.2).nodeList ∧ b.2 ∈ (g.add_edge a.1 a.2).nodeList := by
        rw [hnode]
        exact hmem
      simp only [addEdgesFrom, hoi]
      rw [ih (i + 1) _ hmem', hnode]

lemma addEdgesFrom_simple (ordered : List (Node × Node))
    (hne : ∀ a ∈ ordered, a.1 ≠ a.2) :
    ∀ (k i : ℕ) (g : Graph),
      (∀ e ∈ g.edgeList, e.1 ≠ e.2) →
      List.Pairwise (fun a b => ¬ sameEdge a b) g.edgeList →
      (∀ e ∈ (addEdgesFrom ordered g i k).graph.edgeList, e.1 ≠ e.2) ∧
        List.Pairwise (fun a b => ¬ sameEdge a b) (addEdgesFrom ordered g i k).graph.edgeList := by
  intro k
  induction k with
  | zero => intro i g h1 h2; exact ⟨h1, h2⟩
  | succ k ih =>
    intro i g h1 h2
    cases hoi : ordered[i]? with
    | none =>
      simp only [addEdgesFrom, hoi]
      exact ⟨h1, h2⟩
    | some a =>
      have ha : a ∈ ordered := List.getElem?_mem hoi
      obtain ⟨h1', h2'⟩ := add_edge_preserves_simple (hne a ha) h1 h2
      simp only [addEdgesFrom, hoi]
      exact ih (i + 1) _ h1' h2'

lemma addEdgesFrom_edge_extend (ordered : List (Node × Node)) :
    ∀ (k i : ℕ) (g : Graph),
      ∃ l, (addEdgesFrom ordered g i k).graph.edgeList = g.edgeList ++ l := by
  intro k
  induction k with
  | zero => intro i g; exact ⟨[], by simp [addEdgesFrom]⟩
  | succ k ih =>
    intro i g
    cases hoi : ordered[i]? with
    | none => exact ⟨[], by simp [addEdgesFrom, hoi]⟩
    | some a =>
      obtain ⟨l1, hl1⟩ := add_edge_edgeList_append g a.1 a.2
      obtain ⟨l2, hl2⟩ := ih (i + 1) (g.add_edge a.1 a.2)
      refine ⟨l1 ++ l2, ?_⟩
      simp only [addEdgesFrom, hoi]
      rw [hl2, hl1, List.append_assoc]

/-- The returned edge list on an edge-less initial graph is exactly the
first `n.toNat` entries of `ordered_pairs`, and no exception is raised,
whenever the target does not exceed the number of candidate pairs. -/
lemma model_edgeList {g : Graph} {pd : PosDict} {n : ℤ}
    (hk : (keys pd).Nodup) (hg : g.edgeList = [])
    (hn : n.toNat ≤ (ordered_pairs pd).length) :
    (euclidean_distance_model g pd n).err = none ∧
      (euclidean_distance_model g pd n).graph.edgeList =
        (ordered_pairs pd).take n.toNat := by
  have hpw : List.Pairwise (fun a b => ¬ sameEdge a b)
      (((ordered_pairs pd).drop 0).take n.toNat) := by
    rw [List.drop_zero]
    exact (ordered_pairs_pairwise hk).sublist (List.take_sublist _ _)
  have hfresh : ∀ a ∈ ((ordered_pairs pd).drop 0).take n.toNat,
      ∀ e ∈ g.edgeList, ¬ sameEdge e a := by
    rw [hg]
    intro a _ e he
    cases he
  obtain ⟨herr, hlist⟩ :=
    addEdgesFrom_spec (ordered_pairs pd) n.toNat 0 g (by omega) hpw hfresh
  refine ⟨herr, ?_⟩
  rw [euclidean_distance_model] at *
  rw [hlist, hg, List.drop_zero, List.nil_append]

lemma keys_pd2 : keys pd2 = [0, 1] := rfl

lemma getPos_pd2_0 : getPos pd2 0 = (0, 0) := rfl

lemma getPos_pd2_1 : getPos pd2 1 = (1, 0) := rfl

lemma ordered_pairs_pd2 : ordered_pairs pd2 = [(0, 1)] := by
  norm_num [ordered_pairs, sorted_distance_list, distance_list, combinations2, keys_pd2,
    getPos_pd2_0, getPos_pd2_1, dist_sq, keyLE]

lemma keys_pd4 : keys pd4 = [0, 1, 2, 3] := rfl

lemma getPos_pd4_0 : getPos pd4 0 = (0, 0) := rfl

lemma getPos_pd4_1 : getPos pd4 1 = (1, 0) := rfl

lemma getPos_pd4_2 : getPos pd4 2 = (0, 1) := rfl

lemma getPos_pd4_3 : getPos pd4 3 = (10, 10) := rfl

lemma ordered_pairs_pd4 :
    ordered_pairs pd4 = [(0, 1), (0, 2), (1, 2), (1, 3), (2, 3), (0, 3)] := by
  norm_num [ordered_pairs, sorted_distance_list, distance_list, combinations2, keys_pd4,
    getPos_pd4_0, getPos_pd4_1, getPos_pd4_2, getPos_pd4_3, dist_sq, keyLE]

/-! ### Claim theorems -/

/-- C10: for every coordinate mapping and every negative `n_edges`,
`euclidean_distance_model` returns the supplied graph unchanged and raises
no error: `range(n_edges)` is empty, so the insertion loop runs zero
iterations. -/
theorem C10_negative_target (g : Graph) (pd : PosDict) (n : ℤ) (hn : n < 0) :
    euclidean_distance_model g pd n = ⟨g, none⟩ := by
  have h0 : n.toNat = 0 := Int.toNat_of_nonpos (le_of_lt hn)
  rw [euclidean_distance_model, h0]
  rfl

/-- Witness for C10 at the 2-node dictionary and `n_edges = -5`. -/
theorem C10_witness :
    euclidean_distance_model ⟨[0, 1], []⟩ pd2 (-5) = ⟨⟨[0, 1], []⟩, none⟩ :=
  C10_negative_target _ _ _ (by norm_num)

/-- C3: the reconstructor is deterministic: identical inputs (same graph,
same association list — hence the same key insertion/iteration order —
and same target) produce identical outputs, edges inserted in the same
order. -/
theorem C3_deterministic (g g' : Graph) (pd pd' : PosDict) (n n' : ℤ)
    (hg : g = g') (hpd : pd = pd') (hn : n = n') :
    euclidean_distance_model g pd n = euclidean_distance_model g' pd' n' := by
  rw [hg, hpd, hn]

/-- Witness for C3 at the 2-node dictionary. -/
theorem C3_witness :
    euclidean_distance_model ⟨[0, 1], []⟩ pd2 1 =
      euclidean_distance_model ⟨[0, 1], []⟩ pd2 1 :=
  C3_deterministic _ _ _ _ _ _ rfl rfl rfl

/-- C2: the code does NOT fail fast with an `InvalidTarget` error on
invalid targets.  With two nodes (one candidate pair) and
`n_edges = 2`, the code first adds the pair `(0, 1)` as an edge and only
then raises `IndexError` from the out-of-range access
`ordered_pairs[1]`; with `n_edges = -1` it silently returns with no
error at all. -/
theorem C2_no_invalid_target_error :
    (euclidean_distance_model ⟨[0, 1], []⟩ pd2 2 =
        ⟨⟨[0, 1], [(0, 1)]⟩, some "IndexError"⟩) ∧
      euclidean_distance_model ⟨[0, 1], []⟩ pd2 (-1) = ⟨⟨[0, 1], []⟩, none⟩ := by
  constructor
  · simp only [euclidean_distance_model, ordered_pairs_pd2]
    decide
  · simp only [euclidean_distance_model, ordered_pairs_pd2]
    decide

/-- C9: end-to-end scenario: 4 nodes at (0,0), (1,0), (0,1), (10,10)
(ids 0, 1, 2, 3) and `target_edge_count = 2` return exactly the edges
`(0,1)` and `(0,2)`, both of squared Euclidean distance 1 (hence
distance 1.0), and no returned edge touches node 3 (the node at
(10,10)). -/
theorem C9_end_to_end :
    (euclidean_distance_model ⟨[0, 1, 2, 3], []⟩ pd4 2).graph.edgeList = [(0, 1), (0, 2)] ∧
      (euclidean_distance_model ⟨[0, 1, 2, 3], []⟩ pd4 2).err = none ∧
      edgeDistSq pd4 (0, 1) = 1 ∧ edgeDistSq pd4 (0, 2) = 1 ∧
      ∀ e ∈ (euclidean_distance_model ⟨[0, 1, 2, 3], []⟩ pd4 2).graph.edgeList,
        e.1 ≠ 3 ∧ e.2 ≠ 3 := by
  refine ⟨?_, ?_, ?_, ?_, ?_⟩
  · simp only [euclidean_distance_model, ordered_pairs_pd4]
    decide
  · simp only [euclidean_distance_model, ordered_pairs_pd4]
    decide
  · norm_num [edgeDistSq, dist_sq, getPos_pd4_0, getPos_pd4_1]
  · norm_num [edgeDistSq, dist_sq, getPos_pd4_0, getPos_pd4_2]
  · simp only [euclidean_distance_model, ordered_pairs_pd4]
    decide

/-- C7 counterexample: called on a supplied graph with an empty node
list, the reconstructor changes the graph's node list as well (networkx
`add_edge` inserts missing endpoints), so it is not true that nothing
other than the edge set changes. -/
theorem C7_counterexample :
    (euclidean_distance_model ⟨[], []⟩ pd2 1).graph.nodeList ≠ [] := by
  simp only [euclidean_distance_model, ordered_pairs_pd2]
  decide

/-- C7 (amended): the reconstructor's only effect on the supplied graph
is appending edges to its edge list, provided every key of the
coordinate mapping is already a node of the graph (as in the reference
workflow, where the supplied graph is the original graph with edges
cleared); the coordinate mapping itself is read-only throughout.  When
endpoints are missing from the node list, `add_edge` also inserts them
(see the counterexample). -/
theorem C7_frame (g : Graph) (pd : PosDict) (n : ℤ)
    (hnodes : ∀ u ∈ keys pd, u ∈ g.nodeList) :
    (euclidean_distance_model g pd n).graph.nodeList = g.nodeList ∧
      ∃ l, (euclidean_distance_model g pd n).graph.edgeList = g.edgeList ++ l := by
  constructor
  · simp only [euclidean_distance_model]
    apply addEdgesFrom_nodeList
    intro a ha
    obtain ⟨h1, h2⟩ := ordered_pairs_mem_keys ha
    exact ⟨hnodes _ h1, hnodes _ h2⟩
  · simp only [euclidean_distance_model]
    exact addEdgesFrom_edge_extend _ _ _ _

/-- Witness for C7 at the 2-node dictionary with both nodes present. -/
theorem C7_witness :
    (euclidean_distance_model ⟨[0, 1], []⟩ pd2 1).graph.nodeList =
        (Graph.mk [0, 1] []).nodeList ∧
      ∃ l, (euclidean_distance_model ⟨[0, 1], []⟩ pd2 1).graph.edgeList =
        (Graph.mk [0, 1] []).edgeList ++ l :=
  C7_frame _ _ _ (by decide)

/-- C1 counterexample: at the 2-node dictionary with `target_edge_count
= -1` the call returns normally with 0 edges, while
`min(target_edge_count, N(N-1)/2) = min(-1, 1) = -1`, so the returned
edge count does not equal the claimed formula for every target. -/
theorem C1_counterexample :
    ¬ (((euclidean_distance_model ⟨[0, 1], []⟩ pd2 (-1)).graph.edgeList.length : ℤ) =
        min (-1 : ℤ) (((keys pd2).length * ((keys pd2).length - 1) / 2 : ℕ) : ℤ)) := by
  simp only [euclidean_distance_model, ordered_pairs_pd2]
  decide

/-- C1 (amended): for every coordinate mapping with at least 2 entries
and distinct keys, and every target with `0 ≤ target ≤ N(N-1)/2`, the
call on an edge-less graph returns normally and the returned edge count
equals `min(target, N(N-1)/2)` (which is `target` in this range).  For
negative targets the code returns 0 edges instead (see the
counterexample), and for targets above the pair count it raises
`IndexError` and returns nothing (see C2). -/
theorem C1_edge_count (g : Graph) (pd : PosDict) (n : ℤ)
    (hk : (keys pd).Nodup) (hN : 2 ≤ (keys pd).length) (hg : g.edgeList = [])
    (h0 : 0 ≤ n) (hP : n ≤ (((keys pd).length * ((keys pd).length - 1) / 2 : ℕ) : ℤ)) :
    (euclidean_distance_model g pd n).err = none ∧
      ((euclidean_distance_model g pd n).graph.edgeList.length : ℤ) =
        min n (((keys pd).length * ((keys pd).length - 1) / 2 : ℕ) : ℤ) := by
  have hplen : (ordered_pairs pd).length = (keys pd).length * ((keys pd).length - 1) / 2 := by
    rw [length_ordered_pairs, Nat.choose_two_right]
  set P : ℕ := (keys pd).length * ((keys pd).length - 1) / 2 with hPdef
  obtain ⟨herr, hlist⟩ := model_edgeList (n := n) hk hg (by omega)
  refine ⟨herr, ?_⟩
  rw [hlist, List.length_take, hplen]
  omega

/-- Witness for C1 at the 2-node dictionary with `target_edge_count =
1 = N(N-1)/2`. -/
theorem C1_witness :
    (euclidean_distance_model ⟨[0, 1], []⟩ pd2 1).err = none ∧
      ((euclidean_distance_model ⟨[0, 1], []⟩ pd2 1).graph.edgeList.length : ℤ) =
        min 1 (((keys pd2).length * ((keys pd2).length - 1) / 2 : ℕ) : ℤ) :=
  C1_edge_count _ _ _ (by decide) (by decide) rfl (by norm_num) (by decide)

/-- C6: for every coordinate mapping with distinct keys and every
target, the edge list built on an edge-less initial graph is simple: no
edge joins a node to itself, and no unordered pair occurs twice. -/
theorem C6_simple_output (g : Graph) (pd : PosDict) (n : ℤ)
    (hk : (keys pd).Nodup) (hg : g.edgeList = []) :
    (∀ e ∈ (euclidean_distance_model g pd n).graph.edgeList, e.1 ≠ e.2) ∧
      List.Pairwise (fun a b => ¬ sameEdge a b)
        (euclidean_distance_model g pd n).graph.edgeList := by
  simp only [euclidean_distance_model]
  apply addEdgesFrom_simple
  · exact fun a ha => ordered_pairs_ne hk ha
  · rw [hg]
    intro e he
    cases he
  · rw [hg]
    exact List.Pairwise.nil

/-- Witness for C6 at the 4-node dictionary with the full target 6. -/
theorem C6_witness :
    (∀ e ∈ (euclidean_distance_model ⟨[0, 1, 2, 3], []⟩ pd4 6).graph.edgeList, e.1 ≠ e.2) ∧
      List.Pairwise (fun a b => ¬ sameEdge a b)
        (euclidean_distance_model ⟨[0, 1, 2, 3], []⟩ pd4 6).graph.edgeList :=
  C6_simple_output _ _ _ (by decide) rfl

/-- C8: requesting exactly `N(N-1)/2` edges on an edge-less graph
succeeds and returns the complete graph on the dictionary's nodes:
every unordered pair of distinct keys is an edge, and every edge joins
two distinct keys. -/
theorem C8_complete_graph (g : Graph) (pd : PosDict)
    (hk : (keys pd).Nodup) (hN : 2 ≤ (keys pd).length) (hg : g.edgeList = []) :
    (euclidean_distance_model g pd
        (((keys pd).length * ((keys pd).length - 1) / 2 : ℕ) : ℤ)).err = none ∧
      (∀ u v, u ∈ keys pd → v ∈ keys pd → u ≠ v →
        (euclidean_distance_model g pd
            (((keys pd).length * ((keys pd).length - 1) / 2 : ℕ) : ℤ)).graph.hasEdge u v =
          true) ∧
      ∀ e ∈ (euclidean_distance_model g pd
          (((keys pd).length * ((keys pd).length - 1) / 2 : ℕ) : ℤ)).graph.edgeList,
        e.1 ∈ keys pd ∧ e.2 ∈ keys pd ∧ e.1 ≠ e.2 := by
  have hplen : (ordered_pairs pd).length = (keys pd).length * ((keys pd).length - 1) / 2 := by
    rw [length_ordered_pairs, Nat.choose_two_right]
  set P : ℕ := (keys pd).length * ((keys pd).length - 1) / 2 with hPdef
  have htn : ((P : ℤ)).toNat = P := Int.toNat_ofNat P
  obtain ⟨herr, hlist⟩ := model_edgeList (n := (P : ℤ)) hk hg (by omega)
  have hfull : (euclidean_distance_model g pd (P : ℤ)).graph.edgeList = ordered_pairs pd := by
    rw [hlist, htn, ← hplen, List.take_length]
  refine ⟨herr, ?_, ?_⟩
  · intro u v hu hv huv
    rcases combinations2_complete hu hv huv with h | h
    · have hm : (u, v) ∈ ordered_pairs pd := (ordered_pairs_perm pd).mem_iff.mpr h
      rw [hasEdge_iff]
      exact ⟨(u, v), by rw [hfull]; exact hm, Or.inl rfl⟩
    · have hm : (v, u) ∈ ordered_pairs pd := (ordered_pairs_perm pd).mem_iff.mpr h
      rw [hasEdge_iff]
      exact ⟨(v, u), by rw [hfull]; exact hm, Or.inr rfl⟩
  · intro e he
    rw [hfull] at he
    exact ⟨(ordered_pairs_mem_keys he).1, (ordered_pairs_mem_keys he).2,
      ordered_pairs_ne hk he⟩

/-- Witness for C8 at the 4-node dictionary. -/
theorem C8_witness :
    (euclidean_distance_model ⟨[0, 1, 2, 3], []⟩ pd4
        (((keys pd4).length * ((keys pd4).length - 1) / 2 : ℕ) : ℤ)).err = none ∧
      (∀ u v, u ∈ keys pd4 → v ∈ keys pd4 → u ≠ v →
        (euclidean_distance_model ⟨[0, 1, 2, 3], []⟩ pd4
            (((keys pd4).length * ((keys pd4).length - 1) / 2 : ℕ) : ℤ)).graph.hasEdge u v =
          true) ∧
      ∀ e ∈ (euclidean_distance_model ⟨[0, 1, 2, 3], []⟩ pd4
          (((keys pd4).length * ((keys pd4).length - 1) / 2 : ℕ) : ℤ)).graph.edgeList,
        e.1 ∈ keys pd4 ∧ e.2 ∈ keys pd4 ∧ e.1 ≠ e.2 :=
  C8_complete_graph _ _ (by decide) (by decide) rfl

/-- C5: with `target_edge_count = 1` on an edge-less graph, the single
returned edge joins two distinct nodes of the mapping whose (squared)
Euclidean distance is minimal over all unordered pairs of distinct
nodes; equivalently, it connects a globally closest pair. -/
theorem C5_closest_pair (g : Graph) (pd : PosDict)
    (hk : (keys pd).Nodup) (hN : 2 ≤ (keys pd).length) (hg : g.edgeList = []) :
    ∃ e, (euclidean_distance_model g pd 1).graph.edgeList = [e] ∧
      e.1 ∈ keys pd ∧ e.2 ∈ keys pd ∧ e.1 ≠ e.2 ∧
      ∀ u v, u ∈ keys pd → v ∈ keys pd → u ≠ v →
        edgeDistSq pd e ≤ dist_sq (getPos pd u) (getPos pd v) := by
  have hlen : 1 ≤ (ordered_pairs pd).length := by
    rw [length_ordered_pairs]
    exact Nat.choose_pos hN
  have ht1 : (1 : ℤ).toNat = 1 := rfl
  obtain ⟨herr, hlist⟩ := model_edgeList (n := 1) hk hg (by rw [ht1]; exact hlen)
  have hSlen : (ordered_pairs pd).length = (sorted_distance_list pd).length := by
    simp only [ordered_pairs]
    exact List.length_map _ _
  have hSne : sorted_distance_list pd ≠ [] := by
    apply List.length_pos.mp
    omega
  obtain ⟨s0, Stail, hS⟩ := List.exists_cons_of_ne_nil hSne
  have hs0 : s0 ∈ sorted_distance_list pd := by
    rw [hS]
    exact List.mem_cons_self _ _
  obtain ⟨hs0pair, hs0key⟩ := mem_sorted_distance_list hs0
  have hL : ordered_pairs pd = (s0.2.1, s0.2.2) :: Stail.map (fun t => (t.2.1, t.2.2)) := by
    simp only [ordered_pairs, hS, List.map_cons]
  refine ⟨(s0.2.1, s0.2.2), ?_, (mem_combinations2 hs0pair).1, (mem_combinations2 hs0pair).2,
    combinations2_ne hk hs0pair, ?_⟩
  · rw [hlist, ht1, hL]
    rfl
  · intro u v hu hv huv
    obtain ⟨tr, htr, htrkey⟩ := exists_sorted_triple hu hv huv
    have hmin : s0.1 ≤ tr.1 := by
      rw [hS] at htr
      rcases List.mem_cons.mp htr with rfl | htr'
      · exact le_refl _
      · have hsorted := sorted_distance_list_sorted pd
        rw [hS] at hsorted
        exact List.rel_of_sorted_cons hsorted _ htr'
    calc edgeDistSq pd (s0.2.1, s0.2.2) = s0.1 := hs0key.symm
      _ ≤ tr.1 := hmin
      _ = dist_sq (getPos pd u) (getPos pd v) := htrkey

/-- Witness for C5 at the 4-node dictionary. -/
theorem C5_witness :
    ∃ e, (euclidean_distance_model ⟨[0, 1, 2, 3], []⟩ pd4 1).graph.edgeList = [e] ∧
      e.1 ∈ keys pd4 ∧ e.2 ∈ keys pd4 ∧ e.1 ≠ e.2 ∧
      ∀ u v, u ∈ keys pd4 → v ∈ keys pd4 → u ≠ v →
        edgeDistSq pd4 e ≤ dist_sq (getPos pd4 u) (getPos pd4 v) :=
  C5_closest_pair _ _ (by decide) (by decide) rfl

/-- C4: monotonicity in the target: with coordinates fixed, every edge
returned for target `t` is also returned for target `t + k`, and every
edge returned for `t + k` but not for `t` spans a (squared) Euclidean
distance at least as large as that of every edge returned for `t`. -/
theorem C4_monotone (g : Graph) (pd : PosDict) (t k : ℕ)
    (hk : (keys pd).Nodup) (hg : g.edgeList = [])
    (hP : t + k ≤ (keys pd).length * ((keys pd).length - 1) / 2) :
    (∀ e ∈ (euclidean_distance_model g pd (t : ℤ)).graph.edgeList,
        e ∈ (euclidean_distance_model g pd ((t + k : ℕ) : ℤ)).graph.edgeList) ∧
      ∀ e ∈ (euclidean_distance_model g pd ((t + k : ℕ) : ℤ)).graph.edgeList,
        e ∉ (euclidean_distance_model g pd (t : ℤ)).graph.edgeList →
        ∀ e' ∈ (euclidean_distance_model g pd (t : ℤ)).graph.edgeList,
          edgeDistSq pd e' ≤ edgeDistSq pd e := by
  have hplen : (ordered_pairs pd).length = (keys pd).length * ((keys pd).length - 1) / 2 := by
    rw [length_ordered_pairs, Nat.choose_two_right]
  have ht1 : ((t : ℤ)).toNat = t := Int.toNat_ofNat t
  have ht2 : (((t + k : ℕ) : ℤ)).toNat = t + k := Int.toNat_ofNat _
  obtain ⟨_, hlist1⟩ := model_edgeList (n := (t : ℤ)) hk hg (by rw [ht1, hplen]; omega)
  obtain ⟨_, hlist2⟩ := model_edgeList (n := ((t + k : ℕ) : ℤ)) hk hg (by rw [ht2, hplen]; omega)
  rw [hlist1, hlist2, ht1, ht2]
  constructor
  · intro e he
    have hsub : (ordered_pairs pd).take t = ((ordered_pairs pd).take (t + k)).take t := by
      rw [List.take_take, min_eq_left (by omega)]
    rw [hsub] at he
    exact (List.take_sublist _ _).mem he
  · intro e he hnot e' he'
    rw [List.take_add] at he
    rcases List.mem_append.mp he with he | he
    · exact absurd he hnot
    have heD : e ∈ (ordered_pairs pd).drop t := (List.take_sublist _ _).mem he
    have hmapt : (ordered_pairs pd).take t =
        ((sorted_distance_list pd).take t).map (fun s => (s.2.1, s.2.2)) := by
      simp only [ordered_pairs]
      rw [List.map_take]
    have hmapd : (ordered_pairs pd).drop t =
        ((sorted_distance_list pd).drop t).map (fun s => (s.2.1, s.2.2)) := by
      simp only [ordered_pairs]
      rw [List.map_drop]
    rw [hmapt] at he'
    rw [hmapd] at heD
    obtain ⟨s', hs', rfl⟩ := List.mem_map.mp he'
    obtain ⟨s, hs, rfl⟩ := List.mem_map.mp heD
    have hrel : keyLE s' s := by
      have hsorted : List.Pairwise keyLE (sorted_distance_list pd) :=
        sorted_distance_list_sorted pd
      rw [← List.take_append_drop t (sorted_distance_list pd)] at hsorted
      exact (List.pairwise_append.mp hsorted).2.2 s' hs' s hs
    have hk' : s'.1 = dist_sq (getPos pd s'.2.1) (getPos pd s'.2.2) :=
      (mem_sorted_distance_list ((List.take_sublist _ _).mem hs')).2
    have hk2 : s.1 = dist_sq (getPos pd s.2.1) (getPos pd s.2.2) :=
      (mem_sorted_distance_list ((List.drop_sublist _ _).mem hs)).2
    calc edgeDistSq pd (s'.2.1, s'.2.2) = s'.1 := hk'.symm
      _ ≤ s.1 := hrel
      _ = edgeDistSq pd (s.2.1, s.2.2) := hk2

/-- Witness for C4 at the 4-node dictionary with targets 1 and 2. -/
theorem C4_witness :
    (∀ e ∈ (euclidean_distance_model ⟨[0, 1, 2, 3], []⟩ pd4 ((1 : ℕ) : ℤ)).graph.edgeList,
        e ∈ (euclidean_distance_model ⟨[0, 1, 2, 3], []⟩ pd4
          ((1 + 1 : ℕ) : ℤ)).graph.edgeList) ∧
      ∀ e ∈ (euclidean_distance_model ⟨[0, 1, 2, 3], []⟩ pd4
          ((1 + 1 : ℕ) : ℤ)).graph.edgeList,
        e ∉ (euclidean_distance_model ⟨[0, 1, 2, 3], []⟩ pd4 ((1 : ℕ) : ℤ)).graph.edgeList →
        ∀ e' ∈ (euclidean_distance_model ⟨[0, 1, 2, 3], []⟩ pd4 ((1 : ℕ) : ℤ)).graph.edgeList,
          edgeDistSq pd4 e' ≤ edgeDistSq pd4 e :=
  C4_monotone _ _ 1 1 (by decide) rfl (by decide)
